import Mathlib

/-!
# Vector vs list benchmark: sorted insertion and random deletion

A shallow embedding of `src/main.cpp`.

* The global engine `gen` together with `std::uniform_int_distribution<>` is a
  parameter `Rng G`: a state type `G` and a function that, given the bounds
  `a`, `b` and the engine state, returns the drawn integer and the next state.
  The library's contract (the result lies in `[a, b]` when `a ≤ b`) is the
  predicate `Rng.InRange`.
* The function templates `insertion` and `deletion` are instantiated twice, as
  the compiler does: at `std::vector<int>` (an `Array Int`, iterators are
  offsets from `begin()`) and at `std::list<int>` (a `List Int`, an iterator is
  a cursor that knows the nodes before it and the nodes from it on).
* Undefined behaviour (erasing at `end()`, integer division by zero) is the
  result `none`.
* Clock readings are not modelled: the phases return the container and the
  engine state they leave; the report takes the four durations as inputs.
-/

namespace VecList

/-! ## The random source -/

/-- The engine `gen` with `std::uniform_int_distribution<> dist(a, b)`:
`uniform a b g` is the value of `dist(gen)` in engine state `g`, with the
engine state afterwards. -/
structure Rng (G : Type) where
  uniform : Int → Int → G → Int × G

/-- The library contract of `std::uniform_int_distribution<>(a, b)`: for
`a ≤ b` every drawn value lies in the closed range `[a, b]`. -/
def Rng.InRange {G : Type} (d : Rng G) : Prop :=
  ∀ (a b : Int) (g : G), a ≤ b → a ≤ (d.uniform a b g).1 ∧ (d.uniform a b g).1 ≤ b

/-- Source `random` (main.cpp 14-18). -/
def random {G : Type} (d : Rng G) (n : Int) (g : G) : Int × G :=
  if n ≤ 0 then (0, g) else d.uniform 0 (n - 1) g

/-- The conversion of `cont.size()` (a `size_t`) to the `int` parameter of
`random`: reduction modulo `2^32` into `[-2^31, 2^31)`. -/
def sizeToInt (s : Nat) : Int :=
  if s % 2 ^ 32 < 2 ^ 31 then ((s % 2 ^ 32 : Nat) : Int)
  else ((s % 2 ^ 32 : Nat) : Int) - 2 ^ 32

/-- A linear congruential engine whose distribution maps the state into
`[a, b]` by remainder; a concrete `Rng` that meets `Rng.InRange`. -/
def lcg : Rng Nat where
  uniform a b g := (a + (g : Int) % (b - a + 1), (g * 1103515245 + 12345) % 2 ^ 31)

/-- An engine that replays a prepared list of draws, ignoring the bounds; when
the list is exhausted it returns the lower bound. -/
def replay : Rng (List Int) where
  uniform a _ g :=
    match g with
    | [] => (a, [])
    | x :: xs => (x, xs)

/-- The values returned by `k` successive calls `random(N)` from engine
state `g`, in call order. -/
def drawn {G : Type} (d : Rng G) (N : Int) : Nat → G → List Int
  | 0, _ => []
  | k + 1, g => (random d N g).1 :: drawn d N k (random d N g).2

/-! ## `std::vector<int>` -/

namespace StdVector

/-- The scan `for (; it != cont.end() && *it < num; ++it);` (main.cpp 26)
started at offset `it`; returns the final offset. -/
def scan (cont : Array Int) (num : Int) (it : Nat) : Nat :=
  if h : it < cont.size then
    if cont[it] < num then scan cont num (it + 1) else it
  else it
termination_by cont.size - it

/-- The call `cont.insert(it, v)`: the elements before `it` stay, `v` follows,
then the elements from `it` on, shifted one place. -/
def insert (cont : Array Int) (it : Nat) (v : Int) : Array Int :=
  (cont.extract 0 it).push v ++ cont.extract it cont.size

/-- The body of `for (int i = 0; i < N; i++)` (main.cpp 24-27), run for the
`k` iterations that remain. -/
def insertionLoop {G : Type} (d : Rng G) (N : Int) : Nat → Array Int → G → Array Int × G
  | 0, cont, g => (cont, g)
  | k + 1, cont, g =>
    let r := random d N g
    let it := scan cont r.1 0
    insertionLoop d N k (insert cont it r.1) r.2

/-- Source `insertion` (main.cpp 20-31) at `T = std::vector<int>`. -/
def insertion {G : Type} (d : Rng G) (N : Int) (cont : Array Int) (g : G) : Array Int × G :=
  insertionLoop d N N.toNat cont g

/-- The walk `for (int j = 0; j < pos; ++j) ++it;` (main.cpp 39) with `k`
increments left. -/
def walk (it : Nat) : Nat → Nat
  | 0 => it
  | k + 1 => walk (it + 1) k

/-- The call `cont.erase(it)`: undefined unless `it` points at an element. -/
def erase (cont : Array Int) (it : Nat) : Option (Array Int) :=
  if it < cont.size then some (cont.extract 0 it ++ cont.extract (it + 1) cont.size) else none

/-- One iteration of the `while` body of `deletion` (main.cpp 37-40). -/
def deletionStep {G : Type} (d : Rng G) (cont : Array Int) (g : G) : Option (Array Int × G) :=
  let r := random d (sizeToInt cont.size) g
  let it := walk 0 r.1.toNat
  match erase cont it with
  | none => none
  | some c => some (c, r.2)

/-- Source `deletion` (main.cpp 33-44) at `T = std::vector<int>`. -/
def deletion {G : Type} (d : Rng G) (cont : Array Int) (g : G) : Option (Array Int × G) :=
  if cont.isEmpty then some (cont, g)
  else
    match h : deletionStep d cont g with
    | none => none
    | some (c, g') => deletion d c g'
termination_by cont.size
decreasing_by
  unfold deletionStep erase at h
  simp only at h
  split at h
  · simp at h
  · next c' hc =>
    split at hc
    · simp only [Option.some.injEq, Prod.mk.injEq] at h hc
      rw [← h.1, ← hc]
      simp only [Array.size_append, Array.size_extract]
      omega
    · simp at hc

/-- The `while` body of `deletion` run `k` times in a row. -/
def deletionIter {G : Type} (d : Rng G) : Nat → Array Int → G → Option (Array Int × G)
  | 0, cont, g => some (cont, g)
  | k + 1, cont, g =>
    match deletionStep d cont g with
    | none => none
    | some (c, g') => deletionIter d k c g'

end StdVector

/-! ## `std::list<int>` -/

namespace StdList

/-- An iterator of `std::list<int>`: the nodes before the cursor (nearest
first) and the nodes from the cursor on; `after = []` is `end()`. -/
structure Iter where
  before : List Int
  after : List Int
deriving DecidableEq

/-- The iterator `cont.begin()`. -/
def begin (cont : List Int) : Iter := ⟨[], cont⟩

/-- The increment `++it`; at `end()` the cursor stays where it is. -/
def next : Iter → Iter
  | ⟨b, []⟩ => ⟨b, []⟩
  | ⟨b, x :: r⟩ => ⟨x :: b, r⟩

/-- The scan `for (; it != cont.end() && *it < num; ++it);` (main.cpp 26). -/
def scan (num : Int) : List Int → List Int → Iter
  | b, [] => ⟨b, []⟩
  | b, x :: r => if x < num then scan num (x :: b) r else ⟨b, x :: r⟩

/-- The call `cont.insert(it, v)`: a new node linked in before the cursor. -/
def insert (it : Iter) (v : Int) : List Int :=
  it.before.reverse ++ v :: it.after

/-- The body of `for (int i = 0; i < N; i++)` (main.cpp 24-27), run for the
`k` iterations that remain. -/
def insertionLoop {G : Type} (d : Rng G) (N : Int) : Nat → List Int → G → List Int × G
  | 0, cont, g => (cont, g)
  | k + 1, cont, g =>
    let r := random d N g
    let it := scan r.1 (begin cont).before (begin cont).after
    insertionLoop d N k (insert it r.1) r.2

/-- Source `insertion` (main.cpp 20-31) at `T = std::list<int>`. -/
def insertion {G : Type} (d : Rng G) (N : Int) (cont : List Int) (g : G) : List Int × G :=
  insertionLoop d N N.toNat cont g

/-- The walk `for (int j = 0; j < pos; ++j) ++it;` (main.cpp 39) with `k`
increments left. -/
def walk (it : Iter) : Nat → Iter
  | 0 => it
  | k + 1 => walk (next it) k

/-- The call `cont.erase(it)`: the node at the cursor is unlinked; undefined
at `end()`. -/
def erase (it : Iter) : Option (List Int) :=
  match it.after with
  | [] => none
  | _ :: r => some (it.before.reverse ++ r)

/-- One iteration of the `while` body of `deletion` (main.cpp 37-40). -/
def deletionStep {G : Type} (d : Rng G) (cont : List Int) (g : G) : Option (List Int × G) :=
  let r := random d (sizeToInt cont.length) g
  let it := walk (begin cont) r.1.toNat
  match erase it with
  | none => none
  | some c => some (c, r.2)

/-- Source `deletion` (main.cpp 33-44) at `T = std::list<int>`. -/
def deletion {G : Type} (d : Rng G) (cont : List Int) (g : G) : Option (List Int × G) :=
  if cont.isEmpty then some (cont, g)
  else
    match h : deletionStep d cont g with
    | none => none
    | some (c, g') => deletion d c g'
termination_by cont.length
decreasing_by
  have key : ∀ (k : Nat) (it : Iter) (c' : List Int), erase (walk it k) = some c' →
      c'.length + 1 = it.before.length + it.after.length := by
    intro k
    induction k with
    | zero =>
      intro it c' hc
      obtain ⟨b, a⟩ := it
      cases a with
      | nil => simp [walk, erase] at hc
      | cons x r =>
        simp only [walk, erase, Option.some.injEq] at hc
        subst hc
        simp
        omega
    | succ k ih =>
      intro it c' hc
      obtain ⟨b, a⟩ := it
      cases a with
      | nil =>
        have := ih ⟨b, []⟩ c' (by simpa [walk, next] using hc)
        simpa using this
      | cons x r =>
        have := ih ⟨x :: b, r⟩ c' (by simpa [walk, next] using hc)
        simp only [List.length_cons] at this ⊢
        omega
  unfold deletionStep at h
  simp only at h
  split at h
  · simp at h
  · next c' hc =>
    simp only [Option.some.injEq, Prod.mk.injEq] at h
    have := key _ _ _ hc
    simp only [begin, List.length_nil, Nat.zero_add] at this
    rw [← h.1]
    omega

/-- The `while` body of `deletion` run `k` times in a row. -/
def deletionIter {G : Type} (d : Rng G) : Nat → List Int → G → Option (List Int × G)
  | 0, cont, g => some (cont, g)
  | k + 1, cont, g =>
    match deletionStep d cont g with
    | none => none
    | some (c, g') => deletionIter d k c g'

end StdList

/-! ## `main` -/

/-- The four phases of `main` (main.cpp 47-53) in program order, the engine
state threaded through them; returns the two containers and the engine state
at the end. -/
def mainPhases {G : Type} (d : Rng G) (N : Int) (g : G) : Option (Array Int × List Int × G) :=
  let vec : Array Int := #[]
  let list : List Int := []
  let r1 := StdVector.insertion d N vec g
  let r2 := StdList.insertion d N list r1.2
  match StdVector.deletion d r1.1 r2.2 with
  | none => none
  | some (vec', g3) =>
    match StdList.deletion d r2.1 g3 with
    | none => none
    | some (list', g4) => some (vec', list', g4)

/-- The sum `a + b` of two `milliseconds` values (tick counts). -/
def durationAdd (a b : Int) : Int := a + b

/-- The quotient `a / b` of two `milliseconds` values: `operator/` on two
durations divides the tick counts as integers (truncating); division by zero
is undefined. -/
def durationDiv (a b : Int) : Option Int :=
  if b = 0 then none else some (Int.tdiv a b)

/-- The text `std::setw(10) << x` of an integer `x`: its decimal digits,
padded with blanks on the left to ten characters. -/
def setw10 (x : Int) : String :=
  let t := toString x
  String.mk (List.replicate (10 - t.length) ' ') ++ t

/-- What the report of `main` computes. -/
structure Report where
  total_vec_time : Int
  total_list_time : Int
  ratio : Int
  ratioCell : String
deriving DecidableEq

/-- The report of `main` (main.cpp 55-70) from the four measured durations in
milliseconds: the two totals, the quotient of line 70 and the text printed for
it between `"| Vector is Faster | "` and the end of the line. The manipulators
`std::fixed` and `std::setprecision(2)` do not change how an integer prints. -/
def mainReport (vec_ins_time list_ins_time vec_del_time list_del_time : Int) : Option Report :=
  let total_vec_time := durationAdd vec_ins_time vec_del_time
  let total_list_time := durationAdd list_ins_time list_del_time
  match durationDiv total_list_time total_vec_time with
  | none => none
  | some q => some ⟨total_vec_time, total_list_time, q, setw10 q ++ "x|"⟩

/-! ## Specification vocabulary -/

/-- The sequence `new` is the sequence `old` with `v` placed immediately
before the first element that is at least `v` (at the end when there is no
such element): every element before `v` is below `v`, and the element right
after `v`, when there is one, is at least `v`. -/
def PlacedBeforeFirstGe (v : Int) (old new : List Int) : Prop :=
  ∃ pre post : List Int, old = pre ++ post ∧ new = pre ++ v :: post
    ∧ (∀ x ∈ pre, x < v) ∧ ∀ y, post.head? = some y → v ≤ y

/-! ## Facts about the random source -/

theorem lcg_inRange : lcg.InRange := by
  intro a b g hab
  have hpos : (0 : Int) < b - a + 1 := by omega
  have h1 := Int.emod_nonneg (g : Int) (ne_of_gt hpos)
  have h2 := Int.emod_lt_of_pos (g : Int) hpos
  simp only [lcg]
  constructor <;> omega

theorem random_of_nonpos {G : Type} (d : Rng G) {n : Int} (h : n ≤ 0) (g : G) :
    random d n g = (0, g) := by
  simp [random, h]

theorem random_of_pos {G : Type} (d : Rng G) {n : Int} (h : 0 < n) (g : G) :
    random d n g = d.uniform 0 (n - 1) g := by
  simp [random, not_le.mpr h]

theorem random_bounds {G : Type} {d : Rng G} (hd : d.InRange) {n : Int} (h : 0 < n) (g : G) :
    0 ≤ (random d n g).1 ∧ (random d n g).1 < n := by
  rw [random_of_pos d h]
  have := hd 0 (n - 1) g (by omega)
  constructor <;> omega

theorem sizeToInt_le (s : Nat) : sizeToInt s ≤ (s : Int) := by
  have hm : s % 2 ^ 32 ≤ s := Nat.mod_le _ _
  unfold sizeToInt
  split
  · exact_mod_cast hm
  · have : ((s % 2 ^ 32 : Nat) : Int) ≤ (s : Int) := by exact_mod_cast hm
    have h2 : (0 : Int) < 2 ^ 32 := by norm_num
    omega

/-- The position drawn for a non-empty container of size `s` lies in `[0, s)`. -/
theorem position_bounds {G : Type} {d : Rng G} (hd : d.InRange) {s : Nat} (hs : 0 < s) (g : G) :
    0 ≤ (random d (sizeToInt s) g).1 ∧ (random d (sizeToInt s) g).1 < (s : Int) := by
  by_cases h : sizeToInt s ≤ 0
  · rw [random_of_nonpos d h]
    simp only
    omega
  · have hb := random_bounds hd (not_le.mp h) g
    have := sizeToInt_le s
    omega

theorem drawn_length {G : Type} (d : Rng G) (N : Int) (k : Nat) (g : G) :
    (drawn d N k g).length = k := by
  induction k generalizing g with
  | zero => rfl
  | succ k ih => simp [drawn, ih]

theorem drawn_bounds {G : Type} {d : Rng G} (hd : d.InRange) {N : Int} (hN : 0 < N)
    (k : Nat) (g : G) : ∀ x ∈ drawn d N k g, 0 ≤ x ∧ x < N := by
  induction k generalizing g with
  | zero => intro x hx; simp [drawn] at hx
  | succ k ih =>
    intro x hx
    simp only [drawn, List.mem_cons] at hx
    rcases hx with rfl | hx
    · exact random_bounds hd hN g
    · exact ih _ x hx

/-! ## Facts about sorted insertion -/

theorem list_scan_eq (num : Int) (b l : List Int) :
    StdList.scan num b l
      = ⟨(l.takeWhile fun x => decide (x < num)).reverse ++ b,
          l.dropWhile fun x => decide (x < num)⟩ := by
  induction l generalizing b with
  | nil => simp [StdList.scan]
  | cons x r ih =>
    by_cases hx : x < num
    · simp [StdList.scan, hx, ih]
    · simp [StdList.scan, hx]

/-- One list insertion step is the split of the sequence at the first element
that is not below the value. -/
theorem list_insert_scan (num : Int) (l : List Int) :
    StdList.insert (StdList.scan num (StdList.begin l).before (StdList.begin l).after) num
      = (l.takeWhile fun x => decide (x < num)) ++
          num :: l.dropWhile fun x => decide (x < num) := by
  simp [list_scan_eq, StdList.insert, StdList.begin]

theorem split_eq_orderedInsert (num : Int) (l : List Int) :
    (l.takeWhile fun x => decide (x < num)) ++ num :: (l.dropWhile fun x => decide (x < num))
      = l.orderedInsert (· ≤ ·) num := by
  rw [List.orderedInsert_eq_take_drop]
  have hf : (fun x : Int => decide (x < num)) = fun b => decide ¬num ≤ b := by
    funext x
    simp
  rw [hf]

theorem take_length_takeWhile (p : Int → Bool) (l : List Int) :
    l.take (l.takeWhile p).length = l.takeWhile p := by
  induction l with
  | nil => rfl
  | cons x r ih =>
    by_cases hx : p x
    · simp [List.takeWhile_cons, hx, ih]
    · simp [List.takeWhile_cons, hx]

theorem drop_length_takeWhile (p : Int → Bool) (l : List Int) :
    l.drop (l.takeWhile p).length = l.dropWhile p := by
  induction l with
  | nil => rfl
  | cons x r ih =>
    by_cases hx : p x
    · simp [List.takeWhile_cons, List.dropWhile_cons, hx, ih]
    · simp [List.takeWhile_cons, List.dropWhile_cons, hx]

theorem vec_scan_eq (cont : Array Int) (num : Int) :
    ∀ (n it : Nat), cont.size - it = n → it ≤ cont.size →
      StdVector.scan cont num it
        = it + ((cont.toList.drop it).takeWhile fun x => decide (x < num)).length := by
  intro n
  induction n with
  | zero =>
    intro it hn hle
    have hge : ¬ it < cont.size := by omega
    rw [StdVector.scan, dif_neg hge]
    have : cont.toList.drop it = [] := List.drop_eq_nil_of_le (by simp; omega)
    simp [this]
  | succ n ih =>
    intro it hn hle
    have hlt : it < cont.size := by omega
    have hcons : cont.toList.drop it = cont[it] :: cont.toList.drop (it + 1) := by
      rw [List.drop_eq_getElem_cons (by simpa using hlt)]
      simp
    rw [StdVector.scan, dif_pos hlt, hcons]
    by_cases hx : cont[it] < num
    · rw [if_pos hx, ih (it + 1) (by omega) (by omega)]
      simp [List.takeWhile_cons, hx]
      omega
    · rw [if_neg hx]
      simp [List.takeWhile_cons, hx]

theorem vec_scan_zero (cont : Array Int) (num : Int) :
    StdVector.scan cont num 0 = (cont.toList.takeWhile fun x => decide (x < num)).length := by
  rw [vec_scan_eq cont num cont.size 0 rfl (Nat.zero_le _)]
  simp

theorem vec_toList_insert (cont : Array Int) (it : Nat) (v : Int) :
    (StdVector.insert cont it v).toList = cont.toList.take it ++ v :: cont.toList.drop it := by
  have hd : (cont.toList.drop it).take (cont.size - it) = cont.toList.drop it :=
    List.take_of_length_le (by simp)
  simp [StdVector.insert, hd]

/-- One vector insertion step is the split of the sequence at the first element
that is not below the value. -/
theorem vec_insert_scan (cont : Array Int) (num : Int) :
    (StdVector.insert cont (StdVector.scan cont num 0) num).toList
      = (cont.toList.takeWhile fun x => decide (x < num)) ++
          num :: cont.toList.dropWhile fun x => decide (x < num) := by
  rw [vec_toList_insert, vec_scan_zero, take_length_takeWhile, drop_length_takeWhile]

/-- The list insertion loop feeds the drawn values, in order, to the sorted
insert. -/
theorem list_insertionLoop_eq {G : Type} (d : Rng G) (N : Int) (k : Nat) (cont : List Int)
    (g : G) :
    (StdList.insertionLoop d N k cont g).1
      = (drawn d N k g).foldl (fun acc v => acc.orderedInsert (· ≤ ·) v) cont := by
  induction k generalizing cont g with
  | zero => rfl
  | succ k ih =>
    simp only [StdList.insertionLoop, drawn, List.foldl_cons]
    rw [ih, list_insert_scan, split_eq_orderedInsert]

/-- The vector insertion loop computes what the list insertion loop computes. -/
theorem vec_insertionLoop_eq {G : Type} (d : Rng G) (N : Int) (k : Nat) (cont : Array Int)
    (g : G) :
    (StdVector.insertionLoop d N k cont g).1.toList = (StdList.insertionLoop d N k cont.toList g).1
      ∧ (StdVector.insertionLoop d N k cont g).2 = (StdList.insertionLoop d N k cont.toList g).2 := by
  induction k generalizing cont g with
  | zero => exact ⟨rfl, rfl⟩
  | succ k ih =>
    simp only [StdVector.insertionLoop, StdList.insertionLoop]
    rw [list_insert_scan, ← vec_insert_scan]
    exact ih _ _

theorem foldl_orderedInsert_sorted (vs : List Int) (l : List Int) (h : l.Sorted (· ≤ ·)) :
    (vs.foldl (fun acc v => acc.orderedInsert (· ≤ ·) v) l).Sorted (· ≤ ·) := by
  induction vs generalizing l with
  | nil => exact h
  | cons v vs ih => exact ih _ (h.orderedInsert v l)

theorem foldl_orderedInsert_perm (vs : List Int) (l : List Int) :
    (vs.foldl (fun acc v => acc.orderedInsert (· ≤ ·) v) l).Perm (vs ++ l) := by
  induction vs generalizing l with
  | nil => exact List.Perm.refl _
  | cons v vs ih =>
    refine (ih _).trans ?_
    refine (List.Perm.append_left vs (List.perm_orderedInsert (· ≤ ·) v l)).trans ?_
    exact List.perm_middle

/-! ## Facts about random deletion -/

theorem list_walk_eq (k : Nat) (b a : List Int) :
    StdList.walk ⟨b, a⟩ k = ⟨(a.take k).reverse ++ b, a.drop k⟩ := by
  induction k generalizing b a with
  | zero => simp [StdList.walk]
  | succ k ih =>
    cases a with
    | nil => simp [StdList.walk, StdList.next, ih]
    | cons x r => simp [StdList.walk, StdList.next, ih]

theorem list_erase_walk (l : List Int) (k : Nat) :
    StdList.erase (StdList.walk (StdList.begin l) k)
      = if k < l.length then some (l.eraseIdx k) else none := by
  rw [StdList.begin, list_walk_eq]
  by_cases hk : k < l.length
  · rw [if_pos hk]
    have hcons : l.drop k = l[k] :: l.drop (k + 1) := by
      rw [List.drop_eq_getElem_cons hk]
    simp only [StdList.erase]
    rw [hcons]
    simp only [List.append_nil, List.reverse_reverse, List.eraseIdx_eq_take_drop_succ]
  · rw [if_neg hk]
    have : l.drop k = [] := List.drop_eq_nil_of_le (by omega)
    simp [StdList.erase, this]

theorem vec_walk_eq (k it : Nat) : StdVector.walk it k = it + k := by
  induction k generalizing it with
  | zero => rfl
  | succ k ih => rw [StdVector.walk, ih]; omega

theorem vec_erase_eq (cont : Array Int) (it : Nat) :
    (StdVector.erase cont it).map Array.toList
      = if it < cont.size then some (cont.toList.eraseIdx it) else none := by
  unfold StdVector.erase
  by_cases hk : it < cont.size
  · have hd : (cont.toList.drop (it + 1)).take (cont.size - (it + 1)) = cont.toList.drop (it + 1) :=
      List.take_of_length_le (by simp)
    simp [hk, hd, List.eraseIdx_eq_take_drop_succ]
  · simp [hk]

/-- One iteration of the list deletion loop, in closed form. -/
theorem list_deletionStep_eq {G : Type} (d : Rng G) (cont : List Int) (g : G) :
    StdList.deletionStep d cont g
      = if (random d (sizeToInt cont.length) g).1.toNat < cont.length then
          some (cont.eraseIdx (random d (sizeToInt cont.length) g).1.toNat,
            (random d (sizeToInt cont.length) g).2)
        else none := by
  unfold StdList.deletionStep
  simp only [list_erase_walk]
  by_cases hk : (random d (sizeToInt cont.length) g).1.toNat < cont.length
  · simp only [hk, if_true]
  · simp only [hk, if_false]

/-- One iteration of the vector deletion loop does what one iteration of the
list deletion loop does. -/
theorem vec_deletionStep_eq {G : Type} (d : Rng G) (cont : Array Int) (g : G) :
    (StdVector.deletionStep d cont g).map (fun r => (r.1.toList, r.2))
      = StdList.deletionStep d cont.toList g := by
  rw [list_deletionStep_eq]
  unfold StdVector.deletionStep
  have he := vec_erase_eq cont (StdVector.walk 0 (random d (sizeToInt cont.size) g).1.toNat)
  simp only [vec_walk_eq, Nat.zero_add] at he ⊢
  simp only [Array.length_toList]
  cases hE : StdVector.erase cont (random d (sizeToInt cont.size) g).1.toNat with
  | none =>
    rw [hE] at he
    by_cases hk : (random d (sizeToInt cont.size) g).1.toNat < cont.size
    · simp [hk] at he
    · simp [hk]
  | some c =>
    rw [hE] at he
    by_cases hk : (random d (sizeToInt cont.size) g).1.toNat < cont.size
    · simp only [Option.map_some', hk, if_true, Option.some.injEq] at he
      simp [hk, he]
    · simp [hk] at he

theorem list_length_deletionStep {G : Type} {d : Rng G} {cont c : List Int} {g g' : G}
    (h : StdList.deletionStep d cont g = some (c, g')) : c.length + 1 = cont.length := by
  rw [list_deletionStep_eq] at h
  split at h
  · next hk =>
    simp only [Option.some.injEq, Prod.mk.injEq] at h
    rw [← h.1, List.length_eraseIdx_of_lt hk]
    omega
  · simp at h

/-- Under the library contract one iteration on a non-empty list succeeds. -/
theorem list_deletionStep_some {G : Type} {d : Rng G} (hd : d.InRange) (cont : List Int)
    (hne : 0 < cont.length) (g : G) :
    StdList.deletionStep d cont g
      = some (cont.eraseIdx (random d (sizeToInt cont.length) g).1.toNat,
          (random d (sizeToInt cont.length) g).2) := by
  have hb := position_bounds hd hne g
  rw [list_deletionStep_eq, if_pos (by omega)]

/-- The list deletion loop is its body run once per element. -/
theorem list_deletion_eq_iter {G : Type} (d : Rng G) :
    ∀ (n : Nat) (cont : List Int) (g : G), cont.length = n →
      StdList.deletion d cont g = StdList.deletionIter d n cont g := by
  intro n
  induction n with
  | zero =>
    intro cont g hn
    have : cont = [] := List.length_eq_zero.mp hn
    subst this
    rw [StdList.deletion]
    simp [StdList.deletionIter]
  | succ n ih =>
    intro cont g hn
    have hne : cont.isEmpty = false := by
      cases cont with
      | nil => simp at hn
      | cons x r => rfl
    rw [StdList.deletion]
    simp only [hne, Bool.false_eq_true, if_false, StdList.deletionIter]
    cases hS : StdList.deletionStep d cont g with
    | none => rfl
    | some r =>
      obtain ⟨c, g'⟩ := r
      have hl := list_length_deletionStep hS
      exact ih c g' (by omega)

/-- Under the library contract, `j` iterations of the list deletion body on a
list of at least `j` elements succeed and leave `j` elements fewer. -/
theorem list_deletionIter_some {G : Type} {d : Rng G} (hd : d.InRange) :
    ∀ (j : Nat) (cont : List Int) (g : G), j ≤ cont.length →
      ∃ c g', StdList.deletionIter d j cont g = some (c, g') ∧ c.length = cont.length - j := by
  intro j
  induction j with
  | zero => intro cont g _; exact ⟨cont, g, rfl, rfl⟩
  | succ j ih =>
    intro cont g hj
    have hS := list_deletionStep_some hd cont (by omega) g
    have hl := list_length_deletionStep hS
    obtain ⟨c, g', hc, hlen⟩ := ih (cont.eraseIdx (random d (sizeToInt cont.length) g).1.toNat)
      (random d (sizeToInt cont.length) g).2 (by omega)
    refine ⟨c, g', ?_, by omega⟩
    simp only [StdList.deletionIter, hS]
    exact hc

theorem list_deletion_empty {G : Type} {d : Rng G} (hd : d.InRange) (cont : List Int) (g : G) :
    ∃ g', StdList.deletion d cont g = some ([], g') := by
  obtain ⟨c, g', hc, hlen⟩ := list_deletionIter_some hd cont.length cont g (Nat.le_refl _)
  have : c = [] := List.length_eq_zero.mp (by omega)
  subst this
  exact ⟨g', by rw [list_deletion_eq_iter d cont.length cont g rfl, hc]⟩

theorem vec_size_deletionStep {G : Type} {d : Rng G} {cont c : Array Int} {g g' : G}
    (h : StdVector.deletionStep d cont g = some (c, g')) : c.size + 1 = cont.size := by
  have he := vec_deletionStep_eq d cont g
  rw [h] at he
  have := list_length_deletionStep he.symm
  simpa using this

/-- The vector deletion body run `k` times does what the list deletion body
run `k` times does. -/
theorem vec_deletionIter_eq {G : Type} (d : Rng G) (k : Nat) (cont : Array Int) (g : G) :
    (StdVector.deletionIter d k cont g).map (fun r => (r.1.toList, r.2))
      = StdList.deletionIter d k cont.toList g := by
  induction k generalizing cont g with
  | zero => rfl
  | succ k ih =>
    have he := vec_deletionStep_eq d cont g
    simp only [StdVector.deletionIter, StdList.deletionIter]
    cases hS : StdVector.deletionStep d cont g with
    | none =>
      rw [hS] at he
      rw [← he]
      rfl
    | some r =>
      obtain ⟨c, g'⟩ := r
      rw [hS] at he
      rw [← he]
      exact ih c g'

/-- The vector deletion loop is its body run once per element. -/
theorem vec_deletion_eq_iter {G : Type} (d : Rng G) :
    ∀ (n : Nat) (cont : Array Int) (g : G), cont.size = n →
      StdVector.deletion d cont g = StdVector.deletionIter d n cont g := by
  intro n
  induction n with
  | zero =>
    intro cont g hn
    have he : cont.isEmpty = true := by simp [Array.isEmpty, hn]
    rw [StdVector.deletion, if_pos he]
    rfl
  | succ n ih =>
    intro cont g hn
    have hne : cont.isEmpty = false := by simp [Array.isEmpty, hn]
    rw [StdVector.deletion]
    simp only [hne, Bool.false_eq_true, if_false, StdVector.deletionIter]
    cases hS : StdVector.deletionStep d cont g with
    | none => rfl
    | some r =>
      obtain ⟨c, g'⟩ := r
      have hl := vec_size_deletionStep hS
      exact ih c g' (by omega)

/-- Under the library contract, `j` iterations of the vector deletion body on
a vector of at least `j` elements succeed and leave `j` elements fewer. -/
theorem vec_deletionIter_some {G : Type} {d : Rng G} (hd : d.InRange)
    (j : Nat) (cont : Array Int) (g : G) (hj : j ≤ cont.size) :
    ∃ c g', StdVector.deletionIter d j cont g = some (c, g') ∧ c.size = cont.size - j := by
  obtain ⟨l, g', hl, hlen⟩ := list_deletionIter_some hd j cont.toList g (by simpa using hj)
  have he := vec_deletionIter_eq d j cont g
  rw [hl] at he
  cases hI : StdVector.deletionIter d j cont g with
  | none => rw [hI] at he; simp at he
  | some r =>
    obtain ⟨c, g''⟩ := r
    rw [hI] at he
    simp only [Option.map_some', Option.some.injEq, Prod.mk.injEq] at he
    refine ⟨c, g'', rfl, ?_⟩
    have : c.toList.length = cont.toList.length - j := by rw [he.1]; exact hlen
    simpa using this

theorem vec_deletion_empty {G : Type} {d : Rng G} (hd : d.InRange) (cont : Array Int)
    (g : G) : ∃ g', StdVector.deletion d cont g = some (#[], g') := by
  obtain ⟨c, g', hc, hlen⟩ := vec_deletionIter_some hd cont.size cont g (Nat.le_refl _)
  have : c = #[] := Array.eq_empty_of_size_eq_zero (by omega)
  subst this
  exact ⟨g', by rw [vec_deletion_eq_iter d cont.size cont g rfl, hc]⟩

/-- The vector deletion loop leaves what the list deletion loop leaves. -/
theorem vec_deletion_eq {G : Type} (d : Rng G) (cont : Array Int) (g : G) :
    (StdVector.deletion d cont g).map (fun r => (r.1.toList, r.2))
      = StdList.deletion d cont.toList g := by
  rw [vec_deletion_eq_iter d cont.size cont g rfl,
    list_deletion_eq_iter d cont.size cont.toList g (by simp)]
  exact vec_deletionIter_eq d cont.size cont g

/-! ## The insertion phase as a whole -/

theorem list_insertion_sorted {G : Type} (d : Rng G) (N : Int) (g : G) :
    (StdList.insertion d N [] g).1.Sorted (· ≤ ·) := by
  rw [StdList.insertion, list_insertionLoop_eq]
  exact foldl_orderedInsert_sorted _ _ List.sorted_nil

theorem list_insertion_perm {G : Type} (d : Rng G) (N : Int) (g : G) :
    (StdList.insertion d N [] g).1.Perm (drawn d N N.toNat g) := by
  rw [StdList.insertion, list_insertionLoop_eq]
  simpa using foldl_orderedInsert_perm (drawn d N N.toNat g) []

theorem list_insertion_length {G : Type} (d : Rng G) (N : Int) (g : G) :
    (StdList.insertion d N [] g).1.length = N.toNat := by
  rw [(list_insertion_perm d N g).length_eq, drawn_length]

theorem vec_insertion_toList {G : Type} (d : Rng G) (N : Int) (g : G) :
    (StdVector.insertion d N #[] g).1.toList = (StdList.insertion d N [] g).1 :=
  (vec_insertionLoop_eq d N N.toNat #[] g).1

theorem vec_insertion_state {G : Type} (d : Rng G) (N : Int) (g : G) :
    (StdVector.insertion d N #[] g).2 = (StdList.insertion d N [] g).2 :=
  (vec_insertionLoop_eq d N N.toNat #[] g).2

theorem list_insertion_eq_sort {G : Type} (d : Rng G) (N : Int) (g : G) :
    (StdList.insertion d N [] g).1 = (drawn d N N.toNat g).insertionSort (· ≤ ·) :=
  List.eq_of_perm_of_sorted
    ((list_insertion_perm d N g).trans (List.perm_insertionSort _ _).symm)
    (list_insertion_sorted d N g) (List.sorted_insertionSort _ _)

theorem list_insertion_bounds {G : Type} {d : Rng G} (hd : d.InRange) (N : Int) (g : G) :
    ∀ x ∈ (StdList.insertion d N [] g).1, 0 ≤ x ∧ x < N := by
  intro x hx
  have hx' : x ∈ drawn d N N.toNat g := (list_insertion_perm d N g).mem_iff.mp hx
  by_cases hN : 0 < N
  · exact drawn_bounds hd hN _ g x hx'
  · have : N.toNat = 0 := by omega
    rw [this] at hx'
    simp [drawn] at hx'

theorem placed_of_split (v : Int) (l : List Int) :
    PlacedBeforeFirstGe v l
      ((l.takeWhile fun x => decide (x < v)) ++ v :: l.dropWhile fun x => decide (x < v)) := by
  refine ⟨l.takeWhile fun x => decide (x < v), l.dropWhile fun x => decide (x < v),
    (List.takeWhile_append_dropWhile _ l).symm, rfl, ?_, ?_⟩
  · intro x hx
    simpa using List.mem_takeWhile_imp hx
  · intro y hy
    have h := List.head?_dropWhile_not (fun x => decide (x < v)) l
    rw [hy] at h
    simpa using h

theorem split_sorted (v : Int) (l : List Int) (h : l.Sorted (· ≤ ·)) :
    ((l.takeWhile fun x => decide (x < v)) ++ v :: l.dropWhile fun x => decide (x < v)).Sorted
      (· ≤ ·) := by
  rw [split_eq_orderedInsert]
  exact h.orderedInsert v l

theorem split_length (v : Int) (l : List Int) :
    ((l.takeWhile fun x => decide (x < v)) ++ v :: l.dropWhile fun x => decide (x < v)).length
      = l.length + 1 := by
  rw [split_eq_orderedInsert]
  exact List.orderedInsert_length _ l v

/-! ## The claims -/

/-- C1: for every workload size `N ≥ 0` and whatever values the `N` draws
return, the insertion phase run on an empty container leaves exactly `N`
elements in non-decreasing order, for the vector and for the list; with `N = 5`
and the draws 3, 1, 4, 1, 5 it leaves 1, 1, 3, 4, 5. -/
theorem C1_insertion_size_sorted {G : Type} (d : Rng G) (N : Int) (hN : 0 ≤ N) (g : G) :
    (((StdVector.insertion d N #[] g).1.size : Int) = N
        ∧ (StdVector.insertion d N #[] g).1.toList.Sorted (· ≤ ·))
      ∧ (((StdList.insertion d N [] g).1.length : Int) = N
        ∧ (StdList.insertion d N [] g).1.Sorted (· ≤ ·))
      ∧ (StdVector.insertion replay 5 #[] [3, 1, 4, 1, 5]).1.toList = [1, 1, 3, 4, 5]
      ∧ (StdList.insertion replay 5 [] [3, 1, 4, 1, 5]).1 = [1, 1, 3, 4, 5] := by
  have hlen := list_insertion_length d N g
  have hsorted := list_insertion_sorted d N g
  have hvec := vec_insertion_toList d N g
  have hsize : (StdVector.insertion d N #[] g).1.size = N.toNat := by
    rw [← Array.length_toList, hvec, hlen]
  refine ⟨⟨?_, ?_⟩, ⟨?_, hsorted⟩, ?_, ?_⟩
  · rw [hsize]; exact Int.toNat_of_nonneg hN
  · rw [hvec]; exact hsorted
  · rw [hlen]; exact Int.toNat_of_nonneg hN
  · rw [vec_insertion_toList]; decide
  · decide

/-- C1 at the replayed draws 3, 1, 4, 1, 5 with `N = 5`. -/
theorem C1_insertion_size_sorted_witness :
    (0 : Int) ≤ 5
      ∧ ((((StdVector.insertion replay 5 #[] [3, 1, 4, 1, 5]).1.size : Int) = 5
          ∧ (StdVector.insertion replay 5 #[] [3, 1, 4, 1, 5]).1.toList.Sorted (· ≤ ·))
        ∧ (((StdList.insertion replay 5 [] [3, 1, 4, 1, 5]).1.length : Int) = 5
          ∧ (StdList.insertion replay 5 [] [3, 1, 4, 1, 5]).1.Sorted (· ≤ ·))
        ∧ (StdVector.insertion replay 5 #[] [3, 1, 4, 1, 5]).1.toList = [1, 1, 3, 4, 5]
        ∧ (StdList.insertion replay 5 [] [3, 1, 4, 1, 5]).1 = [1, 1, 3, 4, 5]) :=
  ⟨by decide, C1_insertion_size_sorted replay 5 (by decide) [3, 1, 4, 1, 5]⟩

/-- C2: when the distribution keeps its contract, the deletion phase started
on any vector or list, of any size, in any engine state, returns, and the
container is empty when it does. -/
theorem C2_deletion_leaves_empty {G : Type} (d : Rng G) (hd : d.InRange)
    (vec : Array Int) (list : List Int) (g : G) :
    (∃ g', StdVector.deletion d vec g = some (#[], g'))
      ∧ (∃ g', StdList.deletion d list g = some ([], g')) :=
  ⟨vec_deletion_empty hd vec g, list_deletion_empty hd list g⟩

/-- C2 at the linear congruential engine and the five elements 1, 1, 3, 4, 5. -/
theorem C2_deletion_leaves_empty_witness :
    lcg.InRange
      ∧ ((∃ g', StdVector.deletion lcg #[1, 1, 3, 4, 5] 7 = some (#[], g'))
        ∧ (∃ g', StdList.deletion lcg [1, 1, 3, 4, 5] 7 = some ([], g'))) :=
  ⟨lcg_inRange, C2_deletion_leaves_empty lcg lcg_inRange #[1, 1, 3, 4, 5] [1, 1, 3, 4, 5] 7⟩

/-- C3: at the samples vector insert 100, vector delete 50, list insert 300,
list delete 200 the code computes the totals 150 and 500, and the quotient of
the two totals is the integer 3, printed as `3` and not as `3.33`. -/
theorem C3_report_ratio_is_integer :
    mainReport 100 300 50 200 = some ⟨150, 500, 3, "         3x|"⟩ := by
  decide

/-- C4: when the vector total is zero the quotient of the totals is an integer
division by zero: the report has no value, whatever the list durations are;
with `N = 0` the four phases make no draw and leave both containers empty. -/
theorem C4_report_zero_total_undefined {G : Type} (d : Rng G) (g : G)
    (list_ins_time list_del_time : Int) :
    mainReport 0 list_ins_time 0 list_del_time = none
      ∧ mainPhases d 0 g = some (#[], [], g) := by
  constructor
  · simp [mainReport, durationAdd, durationDiv]
  · have hv : StdVector.deletion d #[] g = some (#[], g) := by
      rw [StdVector.deletion]; rfl
    have hl : StdList.deletion d [] g = some ([], g) := by
      rw [StdList.deletion]; rfl
    simp [mainPhases, StdVector.insertion, StdVector.insertionLoop, StdList.insertion,
      StdList.insertionLoop, hv, hl]

/-- C5: for every bound `n ≤ 0`, `random(n)` returns 0, whatever the engine and
its state, and leaves the engine state as it was. -/
theorem C5_random_nonpos_zero {G : Type} (d : Rng G) (n : Int) (hn : n ≤ 0) (g : G) :
    random d n g = (0, g) :=
  random_of_nonpos d hn g

/-- C5 at the bound -3. -/
theorem C5_random_nonpos_zero_witness : (-3 : Int) ≤ 0 ∧ random lcg (-3) 7 = (0, 7) :=
  ⟨by decide, C5_random_nonpos_zero lcg (-3) (by decide) 7⟩

/-- C6: when the distribution keeps its contract, for every bound `n > 0` and
every engine state `random(n)` returns `r` with `0 ≤ r < n`. -/
theorem C6_random_in_range {G : Type} (d : Rng G) (hd : d.InRange) (n : Int) (hn : 0 < n)
    (g : G) : 0 ≤ (random d n g).1 ∧ (random d n g).1 < n :=
  random_bounds hd hn g

/-- C6 at the linear congruential engine, bound 10, state 7. -/
theorem C6_random_in_range_witness :
    lcg.InRange ∧ (0 : Int) < 10 ∧ 0 ≤ (random lcg 10 7).1 ∧ (random lcg 10 7).1 < 10 :=
  ⟨lcg_inRange, by decide, C6_random_in_range lcg lcg_inRange 10 (by decide) 7⟩

/-- C7: fed the same engine state, the vector and the list insertion phases on
an empty container leave the same elements, in the same non-decreasing order,
and the same engine state; the two deletion phases run on those results leave
the same outcome; and when the distribution keeps its contract both containers
are empty after deletion, also in the order in which `main` runs the four
phases. -/
theorem C7_strategies_agree {G : Type} (d : Rng G) (hd : d.InRange) (N : Int) (g : G) :
    (StdVector.insertion d N #[] g).1.toList = (StdList.insertion d N [] g).1
      ∧ (StdVector.insertion d N #[] g).2 = (StdList.insertion d N [] g).2
      ∧ (StdList.insertion d N [] g).1.Sorted (· ≤ ·)
      ∧ (StdVector.deletion d (StdVector.insertion d N #[] g).1
            (StdVector.insertion d N #[] g).2).map (fun r => (r.1.toList, r.2))
          = StdList.deletion d (StdList.insertion d N [] g).1 (StdList.insertion d N [] g).2
      ∧ (∃ g', StdVector.deletion d (StdVector.insertion d N #[] g).1
            (StdVector.insertion d N #[] g).2 = some (#[], g'))
      ∧ (∃ g', StdList.deletion d (StdList.insertion d N [] g).1
            (StdList.insertion d N [] g).2 = some ([], g'))
      ∧ ∃ g', mainPhases d N g = some (#[], [], g') := by
  refine ⟨vec_insertion_toList d N g, vec_insertion_state d N g,
    list_insertion_sorted d N g, ?_, vec_deletion_empty hd _ _,
    list_deletion_empty hd _ _, ?_⟩
  · rw [vec_deletion_eq, vec_insertion_toList, vec_insertion_state]
  · obtain ⟨g3, h3⟩ := vec_deletion_empty hd (StdVector.insertion d N #[] g).1
      (StdList.insertion d N [] (StdVector.insertion d N #[] g).2).2
    obtain ⟨g4, h4⟩ := list_deletion_empty hd
      (StdList.insertion d N [] (StdVector.insertion d N #[] g).2).1 g3
    exact ⟨g4, by simp only [mainPhases, h3, h4]⟩

/-- C7 at the linear congruential engine with `N = 20` from state 7. -/
theorem C7_strategies_agree_witness :
    lcg.InRange
      ∧ ((StdVector.insertion lcg 20 #[] 7).1.toList = (StdList.insertion lcg 20 [] 7).1
        ∧ (StdVector.insertion lcg 20 #[] 7).2 = (StdList.insertion lcg 20 [] 7).2
        ∧ (StdList.insertion lcg 20 [] 7).1.Sorted (· ≤ ·)
        ∧ (StdVector.deletion lcg (StdVector.insertion lcg 20 #[] 7).1
              (StdVector.insertion lcg 20 #[] 7).2).map (fun r => (r.1.toList, r.2))
            = StdList.deletion lcg (StdList.insertion lcg 20 [] 7).1 (StdList.insertion lcg 20 [] 7).2
        ∧ (∃ g', StdVector.deletion lcg (StdVector.insertion lcg 20 #[] 7).1
              (StdVector.insertion lcg 20 #[] 7).2 = some (#[], g'))
        ∧ (∃ g', StdList.deletion lcg (StdList.insertion lcg 20 [] 7).1
              (StdList.insertion lcg 20 [] 7).2 = some ([], g'))
        ∧ ∃ g', mainPhases lcg 20 7 = some (#[], [], g')) :=
  ⟨lcg_inRange, C7_strategies_agree lcg lcg_inRange 20 7⟩

/-- C8: one insertion step on a sequence sorted in non-decreasing order, for
any value `v`: the scan from the start stops after the elements below `v`,
`v` is placed immediately before the first element that is at least `v` (at
the end when there is none), and the result is sorted in non-decreasing order
and one element longer; for the vector and for the list. -/
theorem C8_insert_step_keeps_sorted (vec : Array Int) (list : List Int) (v : Int)
    (hvec : vec.toList.Sorted (· ≤ ·)) (hlist : list.Sorted (· ≤ ·)) :
    (StdVector.scan vec v 0 = (vec.toList.takeWhile fun x => decide (x < v)).length
        ∧ PlacedBeforeFirstGe v vec.toList
            (StdVector.insert vec (StdVector.scan vec v 0) v).toList
        ∧ (StdVector.insert vec (StdVector.scan vec v 0) v).toList.Sorted (· ≤ ·)
        ∧ (StdVector.insert vec (StdVector.scan vec v 0) v).size = vec.size + 1)
      ∧ ((StdList.scan v (StdList.begin list).before (StdList.begin list).after).after
            = (list.dropWhile fun x => decide (x < v))
        ∧ PlacedBeforeFirstGe v list
            (StdList.insert (StdList.scan v (StdList.begin list).before (StdList.begin list).after) v)
        ∧ (StdList.insert
              (StdList.scan v (StdList.begin list).before (StdList.begin list).after) v).Sorted
            (· ≤ ·)
        ∧ (StdList.insert
              (StdList.scan v (StdList.begin list).before (StdList.begin list).after) v).length
            = list.length + 1) := by
  refine ⟨⟨vec_scan_zero vec v, ?_, ?_, ?_⟩, ⟨?_, ?_, ?_, ?_⟩⟩
  · rw [vec_insert_scan]; exact placed_of_split v _
  · rw [vec_insert_scan]; exact split_sorted v _ hvec
  · rw [← Array.length_toList, vec_insert_scan, split_length, Array.length_toList]
  · rw [list_scan_eq]; rfl
  · rw [list_insert_scan]; exact placed_of_split v _
  · rw [list_insert_scan]; exact split_sorted v _ hlist
  · rw [list_insert_scan]; exact split_length v _

/-- C8 at the sorted sequence 1, 3, 5 and the value 3. -/
theorem C8_insert_step_keeps_sorted_witness :
    (#[1, 3, 5] : Array Int).toList.Sorted (· ≤ ·) ∧ ([1, 3, 5] : List Int).Sorted (· ≤ ·)
      ∧ ((StdVector.scan #[1, 3, 5] 3 0
            = ((#[1, 3, 5] : Array Int).toList.takeWhile fun x => decide (x < 3)).length
          ∧ PlacedBeforeFirstGe 3 (#[1, 3, 5] : Array Int).toList
              (StdVector.insert #[1, 3, 5] (StdVector.scan #[1, 3, 5] 3 0) 3).toList
          ∧ (StdVector.insert #[1, 3, 5] (StdVector.scan #[1, 3, 5] 3 0) 3).toList.Sorted (· ≤ ·)
          ∧ (StdVector.insert #[1, 3, 5] (StdVector.scan #[1, 3, 5] 3 0) 3).size
              = (#[1, 3, 5] : Array Int).size + 1)
        ∧ ((StdList.scan 3 (StdList.begin [1, 3, 5]).before (StdList.begin [1, 3, 5]).after).after
              = (([1, 3, 5] : List Int).dropWhile fun x => decide (x < 3))
          ∧ PlacedBeforeFirstGe 3 [1, 3, 5]
              (StdList.insert
                (StdList.scan 3 (StdList.begin [1, 3, 5]).before (StdList.begin [1, 3, 5]).after) 3)
          ∧ (StdList.insert
                (StdList.scan 3 (StdList.begin [1, 3, 5]).before
                  (StdList.begin [1, 3, 5]).after) 3).Sorted (· ≤ ·)
          ∧ (StdList.insert
                (StdList.scan 3 (StdList.begin [1, 3, 5]).before
                  (StdList.begin [1, 3, 5]).after) 3).length
              = ([1, 3, 5] : List Int).length + 1)) :=
  ⟨by decide, by decide, C8_insert_step_keeps_sorted #[1, 3, 5] [1, 3, 5] 3 (by decide) (by decide)⟩

/-- C9: when the distribution keeps its contract, in an iteration of the
deletion loop (any non-empty container, any engine state) the drawn position
`p` satisfies `0 ≤ p < size`, the cursor walked `p` steps from the start is at
an existing element and not at the end, and the iteration removes exactly that
one element; `j ≤ k` iterations on a container of size `k` leave `k - j`
elements, so the loop body runs exactly `k` times before the container is
empty, and the loop returns what `k` runs of its body leave. For the vector
and for the list. -/
theorem C9_deletion_iteration {G : Type} (d : Rng G) (hd : d.InRange)
    (vec : Array Int) (list : List Int) (g : G) :
    (0 < vec.size →
        0 ≤ (random d (sizeToInt vec.size) g).1
        ∧ (random d (sizeToInt vec.size) g).1 < (vec.size : Int)
        ∧ StdVector.walk 0 (random d (sizeToInt vec.size) g).1.toNat
            = (random d (sizeToInt vec.size) g).1.toNat
        ∧ StdVector.walk 0 (random d (sizeToInt vec.size) g).1.toNat < vec.size
        ∧ ∃ c, StdVector.deletionStep d vec g = some (c, (random d (sizeToInt vec.size) g).2)
            ∧ c.toList = vec.toList.eraseIdx (random d (sizeToInt vec.size) g).1.toNat
            ∧ c.size + 1 = vec.size)
      ∧ (∀ j, j ≤ vec.size →
          ∃ c g', StdVector.deletionIter d j vec g = some (c, g') ∧ c.size = vec.size - j)
      ∧ StdVector.deletion d vec g = StdVector.deletionIter d vec.size vec g
      ∧ (0 < list.length →
        0 ≤ (random d (sizeToInt list.length) g).1
        ∧ (random d (sizeToInt list.length) g).1 < (list.length : Int)
        ∧ (StdList.walk (StdList.begin list) (random d (sizeToInt list.length) g).1.toNat).after
            = list.drop (random d (sizeToInt list.length) g).1.toNat
        ∧ (StdList.walk (StdList.begin list) (random d (sizeToInt list.length) g).1.toNat).after
            ≠ []
        ∧ StdList.deletionStep d list g
            = some (list.eraseIdx (random d (sizeToInt list.length) g).1.toNat,
                (random d (sizeToInt list.length) g).2)
        ∧ (list.eraseIdx (random d (sizeToInt list.length) g).1.toNat).length + 1 = list.length)
      ∧ (∀ j, j ≤ list.length →
          ∃ c g', StdList.deletionIter d j list g = some (c, g') ∧ c.length = list.length - j)
      ∧ StdList.deletion d list g = StdList.deletionIter d list.length list g := by
  refine ⟨?_, fun j hj => vec_deletionIter_some hd j vec g hj,
    vec_deletion_eq_iter d vec.size vec g rfl, ?_,
    fun j hj => list_deletionIter_some hd j list g hj,
    list_deletion_eq_iter d list.length list g rfl⟩
  · intro hne
    have hb := position_bounds hd hne g
    have hlt : (random d (sizeToInt vec.size) g).1.toNat < vec.size := by omega
    have hS := list_deletionStep_some hd vec.toList (by simpa using hne) g
    have he := vec_deletionStep_eq d vec g
    rw [hS] at he
    simp only [Array.length_toList] at he
    refine ⟨hb.1, hb.2, vec_walk_eq _ _ |>.trans (Nat.zero_add _), ?_, ?_⟩
    · rw [vec_walk_eq, Nat.zero_add]; exact hlt
    · cases hV : StdVector.deletionStep d vec g with
      | none => rw [hV] at he; simp at he
      | some r =>
        obtain ⟨c, g'⟩ := r
        rw [hV] at he
        simp only [Option.map_some', Option.some.injEq, Prod.mk.injEq] at he
        refine ⟨c, ?_, he.1, vec_size_deletionStep hV⟩
        rw [he.2]
  · intro hne
    have hb := position_bounds hd hne g
    have hlt : (random d (sizeToInt list.length) g).1.toNat < list.length := by omega
    have hS := list_deletionStep_some hd list hne g
    have hw : (StdList.walk (StdList.begin list)
        (random d (sizeToInt list.length) g).1.toNat).after
          = list.drop (random d (sizeToInt list.length) g).1.toNat := by
      rw [StdList.begin, list_walk_eq]
    refine ⟨hb.1, hb.2, hw, ?_, hS, list_length_deletionStep hS⟩
    rw [hw]
    intro h0
    have := congrArg List.length h0
    simp only [List.length_drop, List.length_nil] at this
    omega

/-- C9 at the linear congruential engine in state 7 and the five elements
1, 1, 3, 4, 5, as a vector and as a list. -/
theorem C9_deletion_iteration_witness :
    lcg.InRange ∧ 0 < (#[1, 1, 3, 4, 5] : Array Int).size ∧ 0 < ([1, 1, 3, 4, 5] : List Int).length
      ∧ (0 ≤ (random lcg (sizeToInt (#[1, 1, 3, 4, 5] : Array Int).size) 7).1
        ∧ (random lcg (sizeToInt (#[1, 1, 3, 4, 5] : Array Int).size) 7).1
            < ((#[1, 1, 3, 4, 5] : Array Int).size : Int))
      ∧ (∀ j, j ≤ (#[1, 1, 3, 4, 5] : Array Int).size →
          ∃ c g', StdVector.deletionIter lcg j #[1, 1, 3, 4, 5] 7 = some (c, g')
            ∧ c.size = (#[1, 1, 3, 4, 5] : Array Int).size - j)
      ∧ StdVector.deletion lcg #[1, 1, 3, 4, 5] 7
          = StdVector.deletionIter lcg (#[1, 1, 3, 4, 5] : Array Int).size #[1, 1, 3, 4, 5] 7
      ∧ StdList.deletionStep lcg [1, 1, 3, 4, 5] 7
          = some (([1, 1, 3, 4, 5] : List Int).eraseIdx
                (random lcg (sizeToInt ([1, 1, 3, 4, 5] : List Int).length) 7).1.toNat,
              (random lcg (sizeToInt ([1, 1, 3, 4, 5] : List Int).length) 7).2)
      ∧ StdList.deletion lcg [1, 1, 3, 4, 5] 7
          = StdList.deletionIter lcg ([1, 1, 3, 4, 5] : List Int).length [1, 1, 3, 4, 5] 7 :=
  have h := C9_deletion_iteration lcg lcg_inRange #[1, 1, 3, 4, 5] [1, 1, 3, 4, 5] 7
  ⟨lcg_inRange, by decide, by decide,
    ⟨(h.1 (by decide)).1, (h.1 (by decide)).2.1⟩, h.2.1, h.2.2.1,
    (h.2.2.2.1 (by decide)).2.2.2.2.1, h.2.2.2.2.2⟩

/-- C10: the sequence left by the insertion phase on an empty container is a
permutation of the values drawn by its `N` calls of `random(N)`, so it is
those values sorted in non-decreasing order; and when the distribution keeps
its contract every element lies in `[0, N)`. For the vector and for the
list. -/
theorem C10_insertion_is_sorted_draws {G : Type} (d : Rng G) (hd : d.InRange) (N : Int) (g : G) :
    ((StdVector.insertion d N #[] g).1.toList.Perm (drawn d N N.toNat g)
        ∧ (StdVector.insertion d N #[] g).1.toList = (drawn d N N.toNat g).insertionSort (· ≤ ·)
        ∧ ∀ x ∈ (StdVector.insertion d N #[] g).1.toList, 0 ≤ x ∧ x < N)
      ∧ ((StdList.insertion d N [] g).1.Perm (drawn d N N.toNat g)
        ∧ (StdList.insertion d N [] g).1 = (drawn d N N.toNat g).insertionSort (· ≤ ·)
        ∧ ∀ x ∈ (StdList.insertion d N [] g).1, 0 ≤ x ∧ x < N) := by
  rw [vec_insertion_toList]
  exact ⟨⟨list_insertion_perm d N g, list_insertion_eq_sort d N g,
      list_insertion_bounds hd N g⟩,
    ⟨list_insertion_perm d N g, list_insertion_eq_sort d N g,
      list_insertion_bounds hd N g⟩⟩

/-- C10 at the linear congruential engine with `N = 20` from state 7. -/
theorem C10_insertion_is_sorted_draws_witness :
    lcg.InRange
      ∧ (((StdVector.insertion lcg 20 #[] 7).1.toList.Perm (drawn lcg 20 (20 : Int).toNat 7)
          ∧ (StdVector.insertion lcg 20 #[] 7).1.toList
              = (drawn lcg 20 (20 : Int).toNat 7).insertionSort (· ≤ ·)
          ∧ ∀ x ∈ (StdVector.insertion lcg 20 #[] 7).1.toList, 0 ≤ x ∧ x < 20)
        ∧ ((StdList.insertion lcg 20 [] 7).1.Perm (drawn lcg 20 (20 : Int).toNat 7)
          ∧ (StdList.insertion lcg 20 [] 7).1
              = (drawn lcg 20 (20 : Int).toNat 7).insertionSort (· ≤ ·)
          ∧ ∀ x ∈ (StdList.insertion lcg 20 [] 7).1, 0 ≤ x ∧ x < 20)) :=
  ⟨lcg_inRange, C10_insertion_is_sorted_draws lcg lcg_inRange 20 7⟩

end VecList
